import Mathlib

/-!
Verification development for the ArborX minimum-spanning-tree (Boruvka) and
DBSCAN components.  The C++ source is shallowly embedded: machine `float` is
modelled by `WithTop ℚ` (the value `⊤` plays the role of `+inf`), `int` by `ℤ`,
Kokkos views by plain functions or lists, and each data-parallel kernel by a
sequential pass that reads the shared pre-state (snapshot semantics).
-/

/-- Shallow embedding of `ArborX::Details::WeightedEdge`: a directed edge with
`int` endpoints and a `float` weight (modelled by `WithTop ℚ`, where `⊤` stands
for `+infinity`). -/
structure WeightedEdge where
  source : ℤ
  target : ℤ
  weight : WithTop ℚ
deriving DecidableEq

/-- Shallow embedding of `operator<(WeightedEdge const &, WeightedEdge const &)`:
compare the weights first, then the unordered pair of vertices (smaller minimum
first, then smaller maximum). -/
def edgeLt (lhs rhs : WeightedEdge) : Bool :=
  if lhs.weight ≠ rhs.weight then
    decide (lhs.weight < rhs.weight)
  else
    let lhs_min := min lhs.source lhs.target
    let rhs_min := min rhs.source rhs.target
    if lhs_min ≠ rhs_min then
      decide (lhs_min < rhs_min)
    else
      let lhs_max := max lhs.source lhs.target
      let rhs_max := max rhs.source rhs.target
      decide (lhs_max < rhs_max)

/-- Unfolding characterisation of `edgeLt` as a lexicographic comparison of
the triple (weight, smaller endpoint, larger endpoint). -/
theorem edgeLt_iff (a b : WeightedEdge) :
    edgeLt a b = true ↔
      (a.weight < b.weight ∨
        (a.weight = b.weight ∧
          (min a.source a.target < min b.source b.target ∨
            (min a.source a.target = min b.source b.target ∧
              max a.source a.target < max b.source b.target)))) := by
  unfold edgeLt
  by_cases hw : a.weight = b.weight
  · by_cases hm : min a.source a.target = min b.source b.target
    · simp [hw, hm]
    · simp [hw, hm]
  · simp [hw]

theorem edgeLt_irrefl (a : WeightedEdge) : edgeLt a a = false := by
  rw [← Bool.not_eq_true, edgeLt_iff]
  simp

theorem edgeLt_trans {a b c : WeightedEdge}
    (hab : edgeLt a b = true) (hbc : edgeLt b c = true) : edgeLt a c = true := by
  rw [edgeLt_iff] at hab hbc ⊢
  rcases hab with h1 | ⟨he1, h1⟩
  · rcases hbc with h2 | ⟨he2, _⟩
    · exact Or.inl (lt_trans h1 h2)
    · exact Or.inl (he2 ▸ h1)
  · rcases hbc with h2 | ⟨he2, h2⟩
    · exact Or.inl (he1 ▸ h2)
    · refine Or.inr ⟨he1.trans he2, ?_⟩
      rcases h1 with h1 | ⟨hm1, h1⟩
      · rcases h2 with h2 | ⟨hm2, _⟩
        · exact Or.inl (lt_trans h1 h2)
        · exact Or.inl (hm2 ▸ h1)
      · rcases h2 with h2 | ⟨hm2, h2⟩
        · exact Or.inl (hm1 ▸ h2)
        · exact Or.inr ⟨hm1.trans hm2, lt_trans h1 h2⟩

theorem edgeLt_asymm {a b : WeightedEdge} (hab : edgeLt a b = true) :
    edgeLt b a = false := by
  by_contra h
  have hba : edgeLt b a = true := by
    cases hb : edgeLt b a with
    | false => exact absurd hb h
    | true => rfl
  have := edgeLt_trans hab hba
  rw [edgeLt_irrefl a] at this
  exact Bool.false_ne_true this

theorem edgeLt_total {a b : WeightedEdge}
    (hne : a.weight ≠ b.weight ∨
      (min a.source a.target, max a.source a.target) ≠
        (min b.source b.target, max b.source b.target)) :
    (edgeLt a b = true ∧ edgeLt b a = false) ∨
      (edgeLt b a = true ∧ edgeLt a b = false) := by
  have hone : edgeLt a b = true ∨ edgeLt b a = true := by
    by_cases hw : a.weight = b.weight
    · rcases hne with hne | hne
      · exact absurd hw hne
      · by_cases hm : min a.source a.target = min b.source b.target
        · have hmaxne : max a.source a.target ≠ max b.source b.target := by
            intro hmax
            exact hne (by rw [hm, hmax])
          rcases lt_or_gt_of_ne hmaxne with h | h
          · exact Or.inl ((edgeLt_iff a b).2 (Or.inr ⟨hw, Or.inr ⟨hm, h⟩⟩))
          · exact Or.inr ((edgeLt_iff b a).2 (Or.inr ⟨hw.symm, Or.inr ⟨hm.symm, h⟩⟩))
        · rcases lt_or_gt_of_ne hm with h | h
          · exact Or.inl ((edgeLt_iff a b).2 (Or.inr ⟨hw, Or.inl h⟩))
          · exact Or.inr ((edgeLt_iff b a).2 (Or.inr ⟨hw.symm, Or.inl h⟩))
    · rcases lt_or_gt_of_ne (show a.weight ≠ b.weight from hw) with h | h
      · exact Or.inl ((edgeLt_iff a b).2 (Or.inl h))
      · exact Or.inr ((edgeLt_iff b a).2 (Or.inl h))
  rcases hone with h | h
  · exact Or.inl ⟨h, edgeLt_asymm h⟩
  · exact Or.inr ⟨h, edgeLt_asymm h⟩

/-- C2: `operator<` on `WeightedEdge` is a strict total order on edges with
finite weight: `e1 < e2` iff `e1.weight < e2.weight`, or the weights are equal
and `min(e1.source, e1.target) < min(e2.source, e2.target)`, or those are also
equal and `max(e1.source, e1.target) < max(e2.source, e2.target)`; it is
irreflexive and transitive, and for any two edges with finite weights that
differ in weight or in their unordered vertex pair exactly one of `e1 < e2`,
`e2 < e1` holds. -/
theorem weightedEdge_lt_strict_total_order
    (e1 e2 e3 : WeightedEdge)
    (hf1 : e1.weight ≠ ⊤) (hf2 : e2.weight ≠ ⊤) :
    (edgeLt e1 e2 = true ↔
      (e1.weight < e2.weight ∨
        (e1.weight = e2.weight ∧
          (min e1.source e1.target < min e2.source e2.target ∨
            (min e1.source e1.target = min e2.source e2.target ∧
              max e1.source e1.target < max e2.source e2.target))))) ∧
    edgeLt e1 e1 = false ∧
    (edgeLt e1 e2 = true → edgeLt e2 e3 = true → edgeLt e1 e3 = true) ∧
    ((e1.weight ≠ e2.weight ∨
        (min e1.source e1.target, max e1.source e1.target) ≠
          (min e2.source e2.target, max e2.source e2.target)) →
      (edgeLt e1 e2 = true ∧ edgeLt e2 e1 = false) ∨
        (edgeLt e2 e1 = true ∧ edgeLt e1 e2 = false)) := by
  refine ⟨edgeLt_iff e1 e2, edgeLt_irrefl e1, fun h1 h2 => edgeLt_trans h1 h2,
    fun hne => edgeLt_total hne⟩

/-- Witness for C2 at concrete edges, discharging the finiteness hypotheses. -/
theorem weightedEdge_lt_strict_total_order_witness :
    (edgeLt ⟨0, 1, (1 : ℚ)⟩ ⟨0, 1, (1 : ℚ)⟩ = false) ∧
      ((edgeLt ⟨0, 1, (1 : ℚ)⟩ ⟨0, 2, (1 : ℚ)⟩ = true ∧
          edgeLt ⟨0, 2, (1 : ℚ)⟩ ⟨0, 1, (1 : ℚ)⟩ = false) ∨
        (edgeLt ⟨0, 2, (1 : ℚ)⟩ ⟨0, 1, (1 : ℚ)⟩ = true ∧
          edgeLt ⟨0, 1, (1 : ℚ)⟩ ⟨0, 2, (1 : ℚ)⟩ = false)) := by
  have h := weightedEdge_lt_strict_total_order
    ⟨0, 1, (1 : ℚ)⟩ ⟨0, 2, (1 : ℚ)⟩ ⟨0, 2, (1 : ℚ)⟩
    (by simp) (by simp)
  exact ⟨h.2.1, h.2.2.2 (Or.inr (by decide))⟩

/-- The functional graph underlying `UpdateComponentsAndEdges`: the label of the
target of the component's stored outgoing edge (component `c` occupies slot
`c - n + 1` of the component-indexed array, as in the source). -/
def next0 (n : ℤ) (labels : ℤ → ℤ) (out_edges : ℤ → WeightedEdge) (component : ℤ) : ℤ :=
  labels (out_edges (component - n + 1)).target

/-- Shallow embedding of `UpdateComponentsAndEdges::computeNextComponent`. -/
def computeNextComponent (n : ℤ) (labels : ℤ → ℤ) (out_edges : ℤ → WeightedEdge)
    (component : ℤ) : ℤ :=
  let next_component := labels (out_edges (component - n + 1)).target
  let next_next_component := labels (out_edges (next_component - n + 1)).target
  if next_next_component ≠ component then
    next_component
  else
    min component next_component

/-- Fuelled embedding of the `while` loop of
`UpdateComponentsAndEdges::computeFinalComponent`; `none` models a loop that
does not terminate within the given fuel. -/
def computeFinalComponentAux (f : ℤ → ℤ) : ℕ → ℤ → Option ℤ
  | 0, _ => none
  | fuel + 1, component =>
    if f component = component then some component
    else computeFinalComponentAux f fuel (f component)

theorem computeFinalComponentAux_zero (f : ℤ → ℤ) (c : ℤ) :
    computeFinalComponentAux f 0 c = none := rfl

theorem computeFinalComponentAux_succ (f : ℤ → ℤ) (fuel : ℕ) (c : ℤ) :
    computeFinalComponentAux f (fuel + 1) c =
      if f c = c then some c else computeFinalComponentAux f fuel (f c) := rfl

/-- Shallow embedding of `UpdateComponentsAndEdges::computeFinalComponent`. -/
def computeFinalComponent (n : ℤ) (labels : ℤ → ℤ) (out_edges : ℤ → WeightedEdge)
    (fuel : ℕ) (component : ℤ) : Option ℤ :=
  computeFinalComponentAux (computeNextComponent n labels out_edges) fuel component

/-- The step rule of `computeNextComponent`, abstracted over the functional
graph `g` of stored component out-edges. -/
def nextFun (g : ℤ → ℤ) : ℤ → ℤ :=
  fun c => if g (g c) ≠ c then g c else min c (g c)

theorem computeNextComponent_eq_nextFun (n : ℤ) (labels : ℤ → ℤ)
    (out_edges : ℤ → WeightedEdge) :
    computeNextComponent n labels out_edges = nextFun (next0 n labels out_edges) := rfl

theorem nextFun_of_ne {g : ℤ → ℤ} {c : ℤ} (h : g (g c) ≠ c) : nextFun g c = g c :=
  if_pos h

theorem nextFun_of_eq {g : ℤ → ℤ} {c : ℤ} (h : g (g c) = c) :
    nextFun g c = min c (g c) := by
  unfold nextFun
  simp [h]

/-- Resolving a 2-cycle with the `min` tie-break stabilises after one step. -/
theorem nextFun_twoCycle {g : ℤ → ℤ} {a : ℤ} (h : g (g a) = a) :
    nextFun g (nextFun g a) = nextFun g a := by
  rcases le_or_lt a (g a) with hle | hlt
  · have h1 : nextFun g a = a := by rw [nextFun_of_eq h, min_eq_left hle]
    rw [h1]
    exact h1
  · have h1 : nextFun g a = g a := by rw [nextFun_of_eq h, min_eq_right hlt.le]
    have h3 : g (g (g a)) = g a := congrArg g h
    rw [h1, nextFun_of_eq h3, h, min_eq_left hlt.le]

theorem nextFun_iterate_stab {g : ℤ → ℤ} {a : ℤ}
    (h : nextFun g (nextFun g a) = nextFun g a) :
    ∀ s : ℕ, (nextFun g)^[s + 1] a = nextFun g a := by
  intro s
  induction s with
  | zero => rfl
  | succ m ih => rw [Function.iterate_succ_apply', ih, h]

/-- Every periodic point of `nextFun g` inside a set closed under `g` whose
`g`-cycles are all 2-cycles is in fact a fixed point of `nextFun g`. -/
theorem nextFun_periodic_fixed {g : ℤ → ℤ} {S : Finset ℤ} {x : ℤ} {p : ℕ}
    (hx : x ∈ S) (hp : 0 < p) (hper : (nextFun g)^[p] x = x)
    (hcyc : ∀ y ∈ S, ∀ k : ℕ, 0 < k → g^[k] y = y → g (g y) = y) :
    nextFun g x = x := by
  by_cases hA : ∃ t, t < p ∧ g (g ((nextFun g)^[t] x)) = (nextFun g)^[t] x
  · obtain ⟨t, htp, ha⟩ := hA
    have hfa2 : nextFun g (nextFun g ((nextFun g)^[t] x)) =
        nextFun g ((nextFun g)^[t] x) := nextFun_twoCycle ha
    have h1 : (nextFun g)^[p - t] ((nextFun g)^[t] x) = x := by
      rw [← Function.iterate_add_apply, Nat.sub_add_cancel htp.le]
      exact hper
    have hsm : p - t = (p - t - 1) + 1 := by omega
    have h2 : (nextFun g)^[p - t] ((nextFun g)^[t] x) =
        nextFun g ((nextFun g)^[t] x) := by
      rw [hsm]
      exact nextFun_iterate_stab hfa2 (p - t - 1)
    have hx_eq : x = nextFun g ((nextFun g)^[t] x) := by
      rw [← h2]
      exact h1.symm
    have key : ∀ a : ℤ, nextFun g (nextFun g a) = nextFun g a →
        x = nextFun g a → nextFun g x = x := by
      intro a h2c hxa
      rw [hxa]
      exact h2c
    exact key ((nextFun g)^[t] x) hfa2 hx_eq
  · push_neg at hA
    have hiter : ∀ t : ℕ, t ≤ p → (nextFun g)^[t] x = g^[t] x := by
      intro t ht
      induction t with
      | zero => rfl
      | succ m ih =>
        have hm : m < p := by omega
        have hne : g (g ((nextFun g)^[m] x)) ≠ (nextFun g)^[m] x := hA m hm
        rw [Function.iterate_succ_apply', Function.iterate_succ_apply',
          ← ih hm.le, nextFun_of_ne hne, ih hm.le]
    have hgper : g^[p] x = x := by rw [← hiter p le_rfl]; exact hper
    have h2c := hcyc x hx p hp hgper
    have h0 := hA 0 hp
    simp only [Function.iterate_zero, id_eq] at h0
    exact absurd h2c h0

theorem nextFun_mem {g : ℤ → ℤ} {S : Finset ℤ}
    (hmap : ∀ y ∈ S, g y ∈ S) {y : ℤ} (hy : y ∈ S) : nextFun g y ∈ S := by
  unfold nextFun
  split
  · exact hmap y hy
  · rcases min_choice y (g y) with h | h <;> rw [h]
    · exact hy
    · exact hmap y hy

theorem nextFun_iterate_mem {g : ℤ → ℤ} {S : Finset ℤ}
    (hmap : ∀ y ∈ S, g y ∈ S) {c : ℤ} (hc : c ∈ S) (m : ℕ) :
    (nextFun g)^[m] c ∈ S := by
  induction m with
  | zero => exact hc
  | succ k ih => rw [Function.iterate_succ_apply']; exact nextFun_mem hmap ih

/-- Within a finite set closed under the component graph whose cycles are all
2-cycles, the `nextFun` chain reaches a fixed point in fewer than `S.card`
steps. -/
theorem nextFun_reaches_fixed {g : ℤ → ℤ} {S : Finset ℤ} {c : ℤ}
    (hc : c ∈ S) (hmap : ∀ y ∈ S, g y ∈ S)
    (hcyc : ∀ y ∈ S, ∀ k : ℕ, 0 < k → g^[k] y = y → g (g y) = y) :
    ∃ m : ℕ, m < S.card ∧ nextFun g ((nextFun g)^[m] c) = (nextFun g)^[m] c := by
  have hmaps : ∀ m ∈ Finset.range (S.card + 1), (nextFun g)^[m] c ∈ S :=
    fun m _ => nextFun_iterate_mem hmap hc m
  have hcard : S.card < (Finset.range (S.card + 1)).card := by
    rw [Finset.card_range]; omega
  obtain ⟨i, hi, j, hj, hij, heq⟩ :=
    Finset.exists_ne_map_eq_of_card_lt_of_maps_to hcard hmaps
  rw [Finset.mem_range] at hi hj
  rcases hij.lt_or_lt with hlt | hlt
  · refine ⟨i, by omega, ?_⟩
    have hper : (nextFun g)^[j - i] ((nextFun g)^[i] c) = (nextFun g)^[i] c := by
      rw [← Function.iterate_add_apply, Nat.sub_add_cancel hlt.le, ← heq]
    exact nextFun_periodic_fixed (nextFun_iterate_mem hmap hc i) (by omega) hper hcyc
  · refine ⟨j, by omega, ?_⟩
    have hper : (nextFun g)^[i - j] ((nextFun g)^[j] c) = (nextFun g)^[j] c := by
      rw [← Function.iterate_add_apply, Nat.sub_add_cancel hlt.le, heq]
    exact nextFun_periodic_fixed (nextFun_iterate_mem hmap hc j) (by omega) hper hcyc

theorem computeFinalComponentAux_of_iterate_fixed (f : ℤ → ℤ) :
    ∀ (k fuel : ℕ) (c : ℤ), k < fuel → f (f^[k] c) = f^[k] c →
      computeFinalComponentAux f fuel c = some (f^[k] c) := by
  intro k
  induction k with
  | zero =>
    intro fuel c hk hfix
    obtain ⟨m, rfl⟩ : ∃ m, fuel = m + 1 := ⟨fuel - 1, by omega⟩
    simp only [Function.iterate_zero, id_eq] at hfix ⊢
    rw [computeFinalComponentAux_succ, if_pos hfix]
  | succ k ih =>
    intro fuel c hk hfix
    obtain ⟨m, rfl⟩ : ∃ m, fuel = m + 1 := ⟨fuel - 1, by omega⟩
    by_cases hfc : f c = c
    · have hit : f^[k + 1] c = c := Function.iterate_fixed hfc (k + 1)
      rw [hit, computeFinalComponentAux_succ, if_pos hfc]
    · have hit : f^[k + 1] c = f^[k] (f c) := Function.iterate_succ_apply f k c
      rw [hit]
      have hfix2 : f (f^[k] (f c)) = f^[k] (f c) := by rw [← hit]; exact hfix
      have hrec := ih m (f c) (by omega) hfix2
      rw [computeFinalComponentAux_succ, if_neg hfc]
      exact hrec

theorem computeFinalComponentAux_some_fixed {f : ℤ → ℤ} :
    ∀ {fuel : ℕ} {c d : ℤ}, computeFinalComponentAux f fuel c = some d → f d = d := by
  intro fuel
  induction fuel with
  | zero => intro c d h; simp [computeFinalComponentAux_zero] at h
  | succ m ih =>
    intro c d h
    rw [computeFinalComponentAux_succ] at h
    by_cases hfc : f c = c
    · rw [if_pos hfc] at h
      obtain rfl : c = d := by simpa using h
      exact hfc
    · rw [if_neg hfc] at h
      exact ih h

theorem computeFinalComponentAux_some_iterate {f : ℤ → ℤ} :
    ∀ {fuel : ℕ} {c d : ℤ}, computeFinalComponentAux f fuel c = some d →
      ∃ m : ℕ, d = f^[m] c := by
  intro fuel
  induction fuel with
  | zero => intro c d h; simp [computeFinalComponentAux_zero] at h
  | succ m ih =>
    intro c d h
    rw [computeFinalComponentAux_succ] at h
    by_cases hfc : f c = c
    · rw [if_pos hfc] at h
      obtain rfl : c = d := by simpa using h
      exact ⟨0, rfl⟩
    · rw [if_neg hfc] at h
      obtain ⟨t, ht⟩ := ih h
      exact ⟨t + 1, by rw [Function.iterate_succ_apply]; exact ht⟩

theorem computeFinalComponentAux_of_fixed {f : ℤ → ℤ} {fuel : ℕ} {c d : ℤ}
    (hfix : f c = c) (h : computeFinalComponentAux f fuel c = some d) : d = c := by
  obtain ⟨m, hm⟩ := computeFinalComponentAux_some_iterate h
  rw [hm, Function.iterate_fixed hfix m]

/-- C3: the next-component rule is `next(c) = label(target(component_out_edges[c]))`
followed unless `next(next(c)) = c`, in which case the 2-cycle is broken with
`min(c, next(c))`; and `computeFinalComponent` returns the value obtained by
iterating this rule from `c` until it reaches a fixed point (stated for any
fuel large enough for the while loop to reach the fixed point). -/
theorem mst_next_component_rule_and_fixed_point
    (n : ℤ) (labels : ℤ → ℤ) (out_edges : ℤ → WeightedEdge)
    (c : ℤ) (fuel k : ℕ) (hk : k < fuel)
    (hfix : computeNextComponent n labels out_edges
        ((computeNextComponent n labels out_edges)^[k] c) =
      (computeNextComponent n labels out_edges)^[k] c) :
    (∀ d : ℤ, computeNextComponent n labels out_edges d =
      if next0 n labels out_edges (next0 n labels out_edges d) ≠ d then
        next0 n labels out_edges d
      else
        min d (next0 n labels out_edges d)) ∧
    computeFinalComponent n labels out_edges fuel c =
      some ((computeNextComponent n labels out_edges)^[k] c) := by
  constructor
  · intro d
    rfl
  · exact computeFinalComponentAux_of_iterate_fixed
      (computeNextComponent n labels out_edges) k fuel c hk hfix

/-- Component out-edge table used by concrete witnesses: two components `1`
and `2` (the leaves of a BVH with `n = 2`) mutually choose each other. -/
def witnessOutEdges : ℤ → WeightedEdge :=
  fun s => if s = 0 then ⟨1, 2, (1 : ℚ)⟩ else ⟨2, 1, (1 : ℚ)⟩

/-- Witness for C3: with two mutually-choosing components, the walk from
component `2` reaches the fixed point `1` after one step and
`computeFinalComponent` returns it. -/
theorem mst_next_component_rule_and_fixed_point_witness :
    computeFinalComponent 2 (fun x => x) witnessOutEdges 2 2 =
      some ((computeNextComponent 2 (fun x => x) witnessOutEdges)^[1] 2) :=
  (mst_next_component_rule_and_fixed_point 2 (fun x => x) witnessOutEdges 2 2 1
    (by omega) (by decide)).2

/-- C9: the fixed-point walk of `computeFinalComponent` terminates for every
component-out-edge table in which every cycle of the functional graph
`c ↦ label(target(component_out_edges[c]))` restricted to the finite component
set `S` is a 2-cycle: the chain of next-components reaches a fixed point of
`computeNextComponent` in strictly fewer than `S.card` steps, and in
particular the while loop returns within fuel `S.card`. -/
theorem mst_computeFinalComponent_terminates
    (n : ℤ) (labels : ℤ → ℤ) (out_edges : ℤ → WeightedEdge)
    (S : Finset ℤ) (c : ℤ) (hc : c ∈ S)
    (hmap : ∀ y ∈ S, next0 n labels out_edges y ∈ S)
    (hcyc : ∀ y ∈ S, ∀ k : ℕ, 0 < k →
      (next0 n labels out_edges)^[k] y = y →
      next0 n labels out_edges (next0 n labels out_edges y) = y) :
    ∃ m : ℕ, m < S.card ∧
      computeNextComponent n labels out_edges
          ((computeNextComponent n labels out_edges)^[m] c) =
        (computeNextComponent n labels out_edges)^[m] c ∧
      computeFinalComponent n labels out_edges S.card c =
        some ((computeNextComponent n labels out_edges)^[m] c) := by
  obtain ⟨m, hm, hfix⟩ := nextFun_reaches_fixed hc hmap hcyc
  rw [computeNextComponent_eq_nextFun]
  exact ⟨m, hm, hfix,
    computeFinalComponentAux_of_iterate_fixed (nextFun (next0 n labels out_edges))
      m S.card c hm hfix⟩

/-- Witness for C9 on the two-component 2-cycle table. -/
theorem mst_computeFinalComponent_terminates_witness :
    ∃ m : ℕ, m < ({1, 2} : Finset ℤ).card ∧
      computeNextComponent 2 (fun x => x) witnessOutEdges
          ((computeNextComponent 2 (fun x => x) witnessOutEdges)^[m] 1) =
        (computeNextComponent 2 (fun x => x) witnessOutEdges)^[m] 1 ∧
      computeFinalComponent 2 (fun x => x) witnessOutEdges
          ({1, 2} : Finset ℤ).card 1 =
        some ((computeNextComponent 2 (fun x => x) witnessOutEdges)^[m] 1) := by
  refine mst_computeFinalComponent_terminates 2 (fun x => x) witnessOutEdges
    {1, 2} 1 (by decide) ?_ ?_
  · intro y hy
    fin_cases hy <;> decide
  · intro y hy k hk hper
    fin_cases hy <;> decide

/-- Leaves of the BVH occupy node indices `[n-1, 2n-2]`. -/
def isLeafIndex (n x : ℤ) : Prop := n - 1 ≤ x ∧ x ≤ 2 * n - 2

instance (n x : ℤ) : Decidable (isLeafIndex n x) := by
  unfold isLeafIndex
  infer_instance

/-- The list of BVH leaf indices `n-1, n, ..., 2n-2`, the parallel range of the
`update_components_and_edges` kernel. -/
def leafList (n : ℤ) : List ℤ :=
  (List.range n.toNat).map (fun (j : ℕ) => n - 1 + (j : ℤ))

theorem mem_leafList {n x : ℤ} : x ∈ leafList n ↔ isLeafIndex n x := by
  unfold leafList isLeafIndex
  simp only [List.mem_map, List.mem_range]
  constructor
  · rintro ⟨j, hj, rfl⟩
    omega
  · rintro ⟨h1, h2⟩
    exact ⟨(x - (n - 1)).toNat, by omega, by omega⟩

theorem leafList_length (n : ℤ) : (leafList n).length = n.toNat := by
  unfold leafList
  rw [List.length_map, List.length_range]

/-- Number of Boruvka components: the leaves that are their own label. -/
def numComponents (n : ℤ) (labels : ℤ → ℤ) : ℕ :=
  ((leafList n).filter (fun i => decide (labels i = i))).length

/-- The leaves that emit an edge in the update pass: representatives
(`i == labels(i)` before the rewrite) whose final component differs from `i`. -/
def roundEmitters (n : ℤ) (labels : ℤ → ℤ) (out_edges : ℤ → WeightedEdge)
    (fuel : ℕ) : List ℤ :=
  (leafList n).filter (fun i =>
    decide (labels i = i) &&
    decide ((computeFinalComponent n labels out_edges fuel (labels i)).getD
      (labels i) ≠ i))

/-- Shallow embedding of one `ArborX::MST::update_components_and_edges` pass
(`UpdateComponentsAndEdges::operator()` run over all leaves with snapshot
semantics): every leaf label is rewritten to its final component, and each
representative that merged away appends its component's out-edge.  Returns
`none` when some final-component walk does not terminate within the fuel. -/
def updateComponentsAndEdges (n : ℤ) (labels : ℤ → ℤ)
    (out_edges : ℤ → WeightedEdge) (fuel : ℕ) :
    Option ((ℤ → ℤ) × List WeightedEdge) :=
  if (leafList n).all (fun i =>
      (computeFinalComponent n labels out_edges fuel (labels i)).isSome) then
    some
      (fun x =>
        if isLeafIndex n x then
          (computeFinalComponent n labels out_edges fuel (labels x)).getD (labels x)
        else labels x,
       (roundEmitters n labels out_edges fuel).map (fun i => out_edges (i - n + 1)))
  else none

/-- Labels array invariant maintained across Boruvka rounds: leaf labels stay
in the leaf range and labelling is idempotent (a label is a representative). -/
def LabelsInvariant (n : ℤ) (labels : ℤ → ℤ) : Prop :=
  (∀ x, isLeafIndex n x → isLeafIndex n (labels x)) ∧
  (∀ x, isLeafIndex n x → labels (labels x) = labels x)

def IsComponent (n : ℤ) (labels : ℤ → ℤ) (x : ℤ) : Prop :=
  isLeafIndex n x ∧ labels x = x

/-- Validity of the component out-edge table produced by the traversal phase:
each component's stored edge has its target inside the leaf range. -/
def ComponentEdgesValid (n : ℤ) (labels : ℤ → ℤ)
    (out_edges : ℤ → WeightedEdge) : Prop :=
  ∀ c, IsComponent n labels c → isLeafIndex n (out_edges (c - n + 1)).target

/-- Stronger validity used for unique edge emission: each component's stored
edge leaves the component (source labelled by the component, target not). -/
def ComponentEdgesStrong (n : ℤ) (labels : ℤ → ℤ)
    (out_edges : ℤ → WeightedEdge) : Prop :=
  ∀ c, IsComponent n labels c →
    labels (out_edges (c - n + 1)).source = c ∧
    labels (out_edges (c - n + 1)).target ≠ c

theorem next0_component {n : ℤ} {labels : ℤ → ℤ} {out_edges : ℤ → WeightedEdge}
    (hInv : LabelsInvariant n labels) (hV : ComponentEdgesValid n labels out_edges)
    {c : ℤ} (hc : IsComponent n labels c) :
    IsComponent n labels (next0 n labels out_edges c) := by
  have ht := hV c hc
  exact ⟨hInv.1 _ ht, hInv.2 _ ht⟩

theorem computeNextComponent_component {n : ℤ} {labels : ℤ → ℤ}
    {out_edges : ℤ → WeightedEdge}
    (hInv : LabelsInvariant n labels) (hV : ComponentEdgesValid n labels out_edges)
    {c : ℤ} (hc : IsComponent n labels c) :
    IsComponent n labels (computeNextComponent n labels out_edges c) := by
  rw [computeNextComponent_eq_nextFun]
  unfold nextFun
  split
  · exact next0_component hInv hV hc
  · rcases min_choice c (next0 n labels out_edges c) with h | h <;> rw [h]
    · exact hc
    · exact next0_component hInv hV hc

theorem iterate_component {n : ℤ} {labels : ℤ → ℤ} {out_edges : ℤ → WeightedEdge}
    (hInv : LabelsInvariant n labels) (hV : ComponentEdgesValid n labels out_edges)
    {c : ℤ} (hc : IsComponent n labels c) (m : ℕ) :
    IsComponent n labels ((computeNextComponent n labels out_edges)^[m] c) := by
  induction m with
  | zero => exact hc
  | succ k ih =>
    rw [Function.iterate_succ_apply']
    exact computeNextComponent_component hInv hV ih

/-- The value written back by the final-component walk (its fixed point, or the
starting component if the walk is out of fuel). -/
def finalD (n : ℤ) (labels : ℤ → ℤ) (out_edges : ℤ → WeightedEdge)
    (fuel : ℕ) (c : ℤ) : ℤ :=
  (computeFinalComponent n labels out_edges fuel c).getD c

theorem finalD_of_fixed {n : ℤ} {labels : ℤ → ℤ} {out_edges : ℤ → WeightedEdge}
    {fuel : ℕ} {c : ℤ}
    (hfix : computeNextComponent n labels out_edges c = c) :
    finalD n labels out_edges fuel c = c := by
  unfold finalD computeFinalComponent
  cases h : computeFinalComponentAux (computeNextComponent n labels out_edges) fuel c with
  | none => rfl
  | some d =>
    rw [Option.getD_some]
    exact computeFinalComponentAux_of_fixed hfix h

theorem finalD_component {n : ℤ} {labels : ℤ → ℤ} {out_edges : ℤ → WeightedEdge}
    {fuel : ℕ} {c : ℤ}
    (hInv : LabelsInvariant n labels) (hV : ComponentEdgesValid n labels out_edges)
    (hc : IsComponent n labels c) :
    IsComponent n labels (finalD n labels out_edges fuel c) := by
  unfold finalD computeFinalComponent
  cases h : computeFinalComponentAux (computeNextComponent n labels out_edges) fuel c with
  | none => exact hc
  | some d =>
    rw [Option.getD_some]
    obtain ⟨m, rfl⟩ := computeFinalComponentAux_some_iterate h
    exact iterate_component hInv hV hc m

theorem finalD_fixed_of_isSome {n : ℤ} {labels : ℤ → ℤ}
    {out_edges : ℤ → WeightedEdge} {fuel : ℕ} {c : ℤ}
    (h : (computeFinalComponent n labels out_edges fuel c).isSome) :
    computeNextComponent n labels out_edges (finalD n labels out_edges fuel c) =
      finalD n labels out_edges fuel c := by
  unfold finalD
  cases hs : computeFinalComponent n labels out_edges fuel c with
  | none => rw [hs] at h; simp at h
  | some d =>
    rw [Option.getD_some]
    unfold computeFinalComponent at hs
    exact computeFinalComponentAux_some_fixed hs

theorem length_filter_split (l : List ℤ) (p q : ℤ → Bool) :
    (l.filter p).length =
      (l.filter (fun i => p i && q i)).length +
      (l.filter (fun i => p i && !q i)).length := by
  induction l with
  | nil => rfl
  | cons a t ih =>
    cases hp : p a <;> cases hq : q a <;>
      simp [List.filter_cons, hp, hq, ih] <;> omega

theorem updateComponentsAndEdges_some {n : ℤ} {labels ls' : ℤ → ℤ}
    {out_edges : ℤ → WeightedEdge} {fuel : ℕ} {apps : List WeightedEdge}
    (h : updateComponentsAndEdges n labels out_edges fuel = some (ls', apps)) :
    (∀ i ∈ leafList n,
      (computeFinalComponent n labels out_edges fuel (labels i)).isSome) ∧
    ls' = (fun x => if isLeafIndex n x then finalD n labels out_edges fuel (labels x)
      else labels x) ∧
    apps = (roundEmitters n labels out_edges fuel).map
      (fun i => out_edges (i - n + 1)) := by
  unfold updateComponentsAndEdges at h
  split at h
  · simp only [Option.some.injEq, Prod.mk.injEq] at h
    rename_i hcond
    rw [List.all_eq_true] at hcond
    exact ⟨fun i hi => by simpa using hcond i hi, h.1.symm, h.2.symm⟩
  · exact absurd h (by simp)

theorem round_step_properties
    {n : ℤ} {labels ls' : ℤ → ℤ} {out_edges : ℤ → WeightedEdge} {fuel : ℕ}
    {apps : List WeightedEdge}
    (hInv : LabelsInvariant n labels)
    (hV : ComponentEdgesValid n labels out_edges)
    (h : updateComponentsAndEdges n labels out_edges fuel = some (ls', apps)) :
    LabelsInvariant n ls' ∧
    numComponents n labels = numComponents n ls' + apps.length ∧
    (1 ≤ n → 1 ≤ numComponents n ls') := by
  obtain ⟨hsucc, hls, happs⟩ := updateComponentsAndEdges_some h
  subst hls happs
  have hFfixed : ∀ x, isLeafIndex n x →
      computeNextComponent n labels out_edges
        (finalD n labels out_edges fuel (labels x)) =
      finalD n labels out_edges fuel (labels x) :=
    fun x hx => finalD_fixed_of_isSome (hsucc x (mem_leafList.2 hx))
  have hFcomp : ∀ x, isLeafIndex n x →
      IsComponent n labels (finalD n labels out_edges fuel (labels x)) :=
    fun x hx => finalD_component hInv hV ⟨hInv.1 x hx, hInv.2 x hx⟩
  have hInvNew : LabelsInvariant n (fun x =>
      if isLeafIndex n x then finalD n labels out_edges fuel (labels x)
      else labels x) := by
    constructor
    · intro x hx
      simp only [if_pos hx]
      exact (hFcomp x hx).1
    · intro x hx
      simp only [if_pos hx]
      have hr := hFcomp x hx
      rw [if_pos hr.1, hr.2]
      exact finalD_of_fixed (hFfixed x hx)
  have hkey : ∀ i, isLeafIndex n i →
      (finalD n labels out_edges fuel (labels i) = i ↔
        (labels i = i ∧ finalD n labels out_edges fuel (labels i) = i)) := by
    intro i hi
    constructor
    · intro hF
      have hr := hFcomp i hi
      rw [hF] at hr
      exact ⟨hr.2, hF⟩
    · intro hF
      exact hF.2
  have hcomp_new : numComponents n (fun x =>
      if isLeafIndex n x then finalD n labels out_edges fuel (labels x)
      else labels x) =
      ((leafList n).filter (fun i =>
        decide (labels i = i) &&
        decide (finalD n labels out_edges fuel (labels i) = i))).length := by
    unfold numComponents
    congr 1
    apply List.filter_congr
    intro i hi
    have hil := mem_leafList.1 hi
    simp only [if_pos hil]
    by_cases h1 : labels i = i
    · by_cases h2 : finalD n labels out_edges fuel (labels i) = i <;> simp [h1, h2]
    · have h2 : finalD n labels out_edges fuel (labels i) ≠ i := fun hF =>
        h1 ((hkey i hil).1 hF).1
      simp [h1, h2]
  have happs_len : ((roundEmitters n labels out_edges fuel).map
      (fun i => out_edges (i - n + 1))).length =
      ((leafList n).filter (fun i =>
        decide (labels i = i) &&
        !(decide (finalD n labels out_edges fuel (labels i) = i)))).length := by
    rw [List.length_map]
    unfold roundEmitters
    congr 1
    apply List.filter_congr
    intro i _
    by_cases h1 : labels i = i <;>
      by_cases h2 : finalD n labels out_edges fuel (labels i) = i <;>
        simp [h1, h2, finalD]
  refine ⟨hInvNew, ?_, ?_⟩
  · rw [hcomp_new, happs_len]
    exact length_filter_split (leafList n) (fun i => decide (labels i = i))
      (fun i => decide (finalD n labels out_edges fuel (labels i) = i))
  · intro hn
    have hi0 : isLeafIndex n (n - 1) := by unfold isLeafIndex; omega
    have hr := hFcomp (n - 1) hi0
    have hfixr : (fun x =>
        if isLeafIndex n x then finalD n labels out_edges fuel (labels x)
        else labels x) (finalD n labels out_edges fuel (labels (n - 1))) =
        finalD n labels out_edges fuel (labels (n - 1)) := by
      simp only [if_pos hr.1, hr.2]
      exact finalD_of_fixed (hFfixed (n - 1) hi0)
    have hmem : finalD n labels out_edges fuel (labels (n - 1)) ∈
        (leafList n).filter (fun i => decide ((fun x =>
          if isLeafIndex n x then finalD n labels out_edges fuel (labels x)
          else labels x) i = i)) := by
      rw [List.mem_filter]
      exact ⟨mem_leafList.2 hr.1, by simp [hfixr]⟩
    exact List.length_pos_of_mem hmem

/-- State of the Boruvka loop in `MinimumSpanningTree::doBoruvka`: the labels
array (restricted to its leaf entries, the only ones the update pass reads)
and the MST edge buffer contents committed so far (`num_edges` is its length). -/
structure BoruvkaState where
  labels : ℤ → ℤ
  mstEdges : List WeightedEdge

/-- One iteration of the `do { ... } while (num_components > 1)` loop of
`doBoruvka`: given a component-out-edge table produced by the traversal phase
(abstracted, with its targets inside the leaf range), run the update pass and
append the emitted edges.  The guard mirrors `num_components = n - num_edges`
being greater than one when the body re-executes. -/
inductive doBoruvkaStep (n : ℤ) (fuel : ℕ) : BoruvkaState → BoruvkaState → Prop where
  | round (s : BoruvkaState) (out_edges : ℤ → WeightedEdge)
      (ls' : ℤ → ℤ) (apps : List WeightedEdge)
      (hguard : 1 < n - (s.mstEdges.length : ℤ))
      (hvalid : ComponentEdgesValid n s.labels out_edges)
      (hround : updateComponentsAndEdges n s.labels out_edges fuel = some (ls', apps)) :
      doBoruvkaStep n fuel s ⟨ls', s.mstEdges ++ apps⟩

/-- Initial state of `doBoruvka`: `iota` leaf labels, empty edge buffer,
`num_edges = 0`. -/
def initialBoruvkaState : BoruvkaState := ⟨fun x => x, []⟩

/-- Shallow embedding of `finalizeEdges`: map both endpoints of every edge
through the BVH leaf permutation to recover original primitive indices. -/
def finalizeEdges (leaf_permutation : ℤ → ℤ) (edges : List WeightedEdge) :
    List WeightedEdge :=
  edges.map (fun e => ⟨leaf_permutation e.source, leaf_permutation e.target, e.weight⟩)

def BoruvkaInvariant (n : ℤ) (s : BoruvkaState) : Prop :=
  LabelsInvariant n s.labels ∧
  (s.mstEdges.length : ℤ) + (numComponents n s.labels : ℤ) = n ∧
  1 ≤ numComponents n s.labels

theorem numComponents_id (n : ℤ) : numComponents n (fun x : ℤ => x) = n.toNat := by
  unfold numComponents
  have hfilter : List.filter (fun i => decide ((fun x : ℤ => x) i = i))
      (leafList n) = leafList n := by
    rw [List.filter_eq_self]
    intro a _
    simp
  rw [hfilter, leafList_length]

theorem boruvka_invariant_initial {n : ℤ} (hn : 2 ≤ n) :
    BoruvkaInvariant n initialBoruvkaState := by
  refine ⟨⟨fun x hx => hx, fun x _ => rfl⟩, ?_, ?_⟩
  · have hc := numComponents_id n
    simp only [initialBoruvkaState, List.length_nil, Nat.cast_zero, zero_add, hc]
    omega
  · have hc := numComponents_id n
    simp only [initialBoruvkaState, hc]
    omega

theorem boruvka_invariant_step {n : ℤ} {fuel : ℕ} {s t : BoruvkaState}
    (hn : 2 ≤ n) (hinv : BoruvkaInvariant n s) (hstep : doBoruvkaStep n fuel s t) :
    BoruvkaInvariant n t := by
  cases hstep with
  | round out_edges ls' apps hguard hvalid hround =>
  obtain ⟨hInv', hcount, hpos⟩ := round_step_properties hinv.1 hvalid hround
  refine ⟨hInv', ?_, hpos (by omega)⟩
  have h2 := hinv.2.1
  simp only [List.length_append]
  push_cast
  push_cast at h2
  omega

theorem boruvka_invariant_reach {n : ℤ} {fuel : ℕ} {s : BoruvkaState}
    (hn : 2 ≤ n)
    (hreach : Relation.ReflTransGen (doBoruvkaStep n fuel) initialBoruvkaState s) :
    BoruvkaInvariant n s := by
  induction hreach with
  | refl => exact boruvka_invariant_initial hn
  | tail _ hstep ih => exact boruvka_invariant_step hn ih hstep

/-- C1: for every primitive collection of size `n ≥ 2`, when the Boruvka loop
of the MST entry point terminates (the post-body check `num_components =
n - num_edges ≤ 1` holds), the committed edge buffer holds exactly `n - 1`
`WeightedEdge` entries; the final de-permutation pass maps each BVH-leaf
endpoint through the leaf permutation (preserving the buffer length); and the
`num_edges` counter increases monotonically across rounds. -/
theorem mst_edge_buffer_complete
    (n : ℤ) (fuel : ℕ) (leaf_permutation : ℤ → ℤ) (s : BoruvkaState)
    (hn : 2 ≤ n)
    (hreach : Relation.ReflTransGen (doBoruvkaStep n fuel) initialBoruvkaState s)
    (hterm : n - (s.mstEdges.length : ℤ) ≤ 1) :
    (s.mstEdges.length : ℤ) = n - 1 ∧
    (finalizeEdges leaf_permutation s.mstEdges).length = s.mstEdges.length ∧
    finalizeEdges leaf_permutation s.mstEdges = s.mstEdges.map
      (fun e => ⟨leaf_permutation e.source, leaf_permutation e.target, e.weight⟩) ∧
    (∀ t u : BoruvkaState, doBoruvkaStep n fuel t u →
      t.mstEdges.length ≤ u.mstEdges.length) := by
  obtain ⟨_, hsum, hpos⟩ := boruvka_invariant_reach hn hreach
  refine ⟨by omega, List.length_map _ _, rfl, ?_⟩
  intro t u hstep
  cases hstep with
  | round out_edges ls' apps hguard hvalid hround =>
  simp only [List.length_append]
  omega

/-- Post-round labels of the concrete two-leaf witness execution. -/
def witnessLabels1 : ℤ → ℤ :=
  fun x =>
    if isLeafIndex 2 x then
      (computeFinalComponent 2 (fun y : ℤ => y) witnessOutEdges 2 ((fun y : ℤ => y) x)).getD
        ((fun y : ℤ => y) x)
    else (fun y : ℤ => y) x

/-- Edges appended by the concrete two-leaf witness round. -/
def witnessApps1 : List WeightedEdge :=
  (roundEmitters 2 (fun y : ℤ => y) witnessOutEdges 2).map
    (fun i => witnessOutEdges (i - 2 + 1))

theorem witness_round_eq :
    updateComponentsAndEdges 2 (fun y : ℤ => y) witnessOutEdges 2 =
      some (witnessLabels1, witnessApps1) := by
  unfold updateComponentsAndEdges
  rw [if_pos (by decide)]
  rfl

theorem witness_valid : ComponentEdgesValid 2 (fun y : ℤ => y) witnessOutEdges := by
  intro c hc
  obtain ⟨⟨h1, h2⟩, _⟩ := hc
  interval_cases c <;> decide

/-- Witness for C1: the concrete `n = 2` execution performs one round, commits
exactly one edge, and terminates. -/
theorem mst_edge_buffer_complete_witness :
    ((BoruvkaState.mk witnessLabels1 witnessApps1).mstEdges.length : ℤ) = 2 - 1 ∧
    (finalizeEdges (fun x => x - 1)
      (BoruvkaState.mk witnessLabels1 witnessApps1).mstEdges).length =
      (BoruvkaState.mk witnessLabels1 witnessApps1).mstEdges.length := by
  have hstep : doBoruvkaStep 2 2 initialBoruvkaState
      (BoruvkaState.mk witnessLabels1 witnessApps1) := by
    have h := @doBoruvkaStep.round 2 2 initialBoruvkaState
      witnessOutEdges witnessLabels1 witnessApps1 (by simp [initialBoruvkaState])
      witness_valid witness_round_eq
    simpa [initialBoruvkaState] using h
  have h := mst_edge_buffer_complete 2 2 (fun x => x - 1)
    (BoruvkaState.mk witnessLabels1 witnessApps1) (by omega)
    (Relation.ReflTransGen.single hstep) (by decide)
  exact ⟨h.1, h.2.1⟩

theorem eq_or_swap_of_min_max_eq {a b c d : ℤ}
    (hmin : min a b = min c d) (hmax : max a b = max c d) :
    (a = c ∧ b = d) ∨ (a = d ∧ b = c) := by
  simp only [min_def, max_def] at hmin hmax
  split_ifs at hmin hmax <;> omega

theorem mem_roundEmitters {n : ℤ} {labels : ℤ → ℤ} {out_edges : ℤ → WeightedEdge}
    {fuel : ℕ} {i : ℤ} :
    i ∈ roundEmitters n labels out_edges fuel ↔
      (isLeafIndex n i ∧ labels i = i ∧ finalD n labels out_edges fuel i ≠ i) := by
  unfold roundEmitters
  rw [List.mem_filter, mem_leafList]
  constructor
  · rintro ⟨hleaf, hpred⟩
    simp only [Bool.and_eq_true, decide_eq_true_eq] at hpred
    obtain ⟨h1, h2⟩ := hpred
    rw [h1] at h2
    exact ⟨hleaf, h1, h2⟩
  · rintro ⟨hleaf, h1, h2⟩
    refine ⟨hleaf, ?_⟩
    simp only [Bool.and_eq_true, decide_eq_true_eq]
    rw [h1]
    exact ⟨rfl, h2⟩

/-- C4: in every Boruvka round's update pass, an edge is appended exactly for
those leaves equal to their pre-rewrite label whose final component differs
from them; consequently exactly `old_num_components - new_num_components`
edges are appended in the round, and no two distinct emitting components append
the same (undirected) edge. -/
theorem mst_update_pass_edge_emission
    (n : ℤ) (labels : ℤ → ℤ) (out_edges : ℤ → WeightedEdge) (fuel : ℕ)
    (ls' : ℤ → ℤ) (apps : List WeightedEdge)
    (hInv : LabelsInvariant n labels)
    (hV : ComponentEdgesValid n labels out_edges)
    (hS : ComponentEdgesStrong n labels out_edges)
    (hround : updateComponentsAndEdges n labels out_edges fuel = some (ls', apps)) :
    (apps = (roundEmitters n labels out_edges fuel).map
        (fun i => out_edges (i - n + 1)) ∧
      (∀ i : ℤ, i ∈ roundEmitters n labels out_edges fuel ↔
        (isLeafIndex n i ∧ labels i = i ∧
          finalD n labels out_edges fuel i ≠ i))) ∧
    numComponents n labels = numComponents n ls' + apps.length ∧
    (∀ i ∈ roundEmitters n labels out_edges fuel,
      ∀ j ∈ roundEmitters n labels out_edges fuel, i ≠ j →
        (min (out_edges (i - n + 1)).source (out_edges (i - n + 1)).target,
          max (out_edges (i - n + 1)).source (out_edges (i - n + 1)).target) ≠
        (min (out_edges (j - n + 1)).source (out_edges (j - n + 1)).target,
          max (out_edges (j - n + 1)).source (out_edges (j - n + 1)).target)) := by
  obtain ⟨_, _, happs⟩ := updateComponentsAndEdges_some hround
  refine ⟨⟨happs, fun i => mem_roundEmitters⟩,
    (round_step_properties hInv hV hround).2.1, ?_⟩
  intro i hi j hj hij heq
  obtain ⟨hileaf, hilab, hifin⟩ := mem_roundEmitters.1 hi
  obtain ⟨hjleaf, hjlab, hjfin⟩ := mem_roundEmitters.1 hj
  obtain ⟨hsi, hti⟩ := hS i ⟨hileaf, hilab⟩
  obtain ⟨hsj, htj⟩ := hS j ⟨hjleaf, hjlab⟩
  rw [Prod.mk.injEq] at heq
  rcases eq_or_swap_of_min_max_eq heq.1 heq.2 with ⟨hss, _⟩ | ⟨hst, hts⟩
  · exact hij (by rw [← hsi, hss, hsj])
  · have hgi : next0 n labels out_edges i = j := by
      unfold next0
      rw [hts, hsj]
    have hgj : next0 n labels out_edges j = i := by
      unfold next0
      rw [← hst, hsi]
    have hgg : next0 n labels out_edges (next0 n labels out_edges i) = i := by
      rw [hgi, hgj]
    have hfi : computeNextComponent n labels out_edges i = min i j := by
      rw [computeNextComponent_eq_nextFun, nextFun_of_eq hgg, hgi]
    have hggj : next0 n labels out_edges (next0 n labels out_edges j) = j := by
      rw [hgj, hgi]
    have hfj : computeNextComponent n labels out_edges j = min j i := by
      rw [computeNextComponent_eq_nextFun, nextFun_of_eq hggj, hgj]
    rcases lt_trichotomy i j with h | h | h
    · exact hifin (finalD_of_fixed (by rw [hfi, min_eq_left h.le]))
    · exact hij h
    · exact hjfin (finalD_of_fixed (by rw [hfj, min_eq_left h.le]))

theorem witness_labels_invariant : LabelsInvariant 2 (fun y : ℤ => y) :=
  ⟨fun x hx => hx, fun x _ => rfl⟩

theorem witness_strong : ComponentEdgesStrong 2 (fun y : ℤ => y) witnessOutEdges := by
  intro c hc
  obtain ⟨⟨h1, h2⟩, _⟩ := hc
  interval_cases c <;> exact ⟨by decide, by decide⟩

/-- Witness for C4 on the concrete two-leaf round: the emission count equals
the drop in the number of components. -/
theorem mst_update_pass_edge_emission_witness :
    numComponents 2 (fun y : ℤ => y) =
      numComponents 2 witnessLabels1 + witnessApps1.length :=
  (mst_update_pass_edge_emission 2 (fun y : ℤ => y) witnessOutEdges 2
    witnessLabels1 witnessApps1 witness_labels_invariant witness_valid
    witness_strong witness_round_eq).2.1

/-- Parent chase of the `ArborX::DBSCAN::flatten_stat` kernel body: follow
`stat` while it strictly decreases (`vstat > stat(vstat)`). -/
def chaseStat (stat : ℕ → ℕ) (v : ℕ) : ℕ :=
  if stat v < v then chaseStat stat (stat v) else v
termination_by v
decreasing_by
  omega

theorem chaseStat_of_not_lt {stat : ℕ → ℕ} {v : ℕ} (h : ¬ stat v < v) :
    chaseStat stat v = v := by
  rw [chaseStat, if_neg h]

theorem chaseStat_fixed {stat : ℕ → ℕ} (hpre : ∀ w, stat w ≤ w) (v : ℕ) :
    stat (chaseStat stat v) = chaseStat stat v := by
  induction v using Nat.strong_induction_on with
  | _ v ih =>
    rw [chaseStat]
    split
    · rename_i h
      exact ih (stat v) h
    · rename_i h
      have := hpre v
      omega

/-- Shallow embedding of the `ArborX::DBSCAN::flatten_stat` kernel (snapshot
semantics: every thread chases parents in the pre-pass array, starting from
`vstat = stat(i)`, and writes the result back to its own entry). -/
def flatten_stat (stat : ℕ → ℕ) : ℕ → ℕ :=
  fun i => chaseStat stat (stat i)

/-- C7: after the DBSCAN path-flattening pass every entry points directly to
its representative, provided each parent index is no larger than its node:
`stat(stat(i)) = stat(i)` for the flattened array. -/
theorem dbscan_flatten_stat_idempotent
    (stat : ℕ → ℕ) (hpre : ∀ w, stat w ≤ w) (i : ℕ) :
    flatten_stat stat (flatten_stat stat i) = flatten_stat stat i := by
  unfold flatten_stat
  have hfix : stat (chaseStat stat (stat i)) = chaseStat stat (stat i) :=
    chaseStat_fixed hpre (stat i)
  rw [hfix]
  have hnot : ¬ stat (chaseStat stat (stat i)) < chaseStat stat (stat i) := by
    rw [hfix]
    omega
  exact chaseStat_of_not_lt hnot

/-- Witness for C7 with the concrete parent array `v ↦ v / 2`. -/
theorem dbscan_flatten_stat_idempotent_witness :
    flatten_stat (fun w => w / 2) (flatten_stat (fun w => w / 2) 5) =
      flatten_stat (fun w => w / 2) 5 :=
  dbscan_flatten_stat_idempotent (fun w => w / 2) (fun w => Nat.div_le_self w 2) 5

/-- Shallow embedding of `KokkosExt::min_reduce`: `none` models the
`ARBORX_ASSERT(n > 0)` failure on an empty view; otherwise the parallel
reduction with the `if (v(i) < update) update = v(i)` combiner. -/
def min_reduce {α : Type} [LinearOrder α] (v : List α) : Option α :=
  match v with
  | [] => none
  | x :: xs => some (xs.foldl (fun update y => if y < update then y else update) x)

/-- Shallow embedding of `KokkosExt::max_reduce` (combiner
`if (v(i) > update) update = v(i)`). -/
def max_reduce {α : Type} [LinearOrder α] (v : List α) : Option α :=
  match v with
  | [] => none
  | x :: xs => some (xs.foldl (fun update y => if update < y then y else update) x)

/-- Shallow embedding of `KokkosExt::minmax_reduce` (simultaneous combiners
`if (val < local_min)` and `if (local_max < val)`). -/
def minmax_reduce {α : Type} [LinearOrder α] (v : List α) : Option (α × α) :=
  match v with
  | [] => none
  | x :: xs => some (xs.foldl
      (fun p y => (if y < p.1 then y else p.1, if p.2 < y then y else p.2)) (x, x))

theorem foldl_min_spec {α : Type} [LinearOrder α] (xs : List α) (a : α) :
    (xs.foldl (fun update y => if y < update then y else update) a) ∈ a :: xs ∧
    ∀ y ∈ a :: xs, (xs.foldl (fun update y => if y < update then y else update) a) ≤ y := by
  induction xs generalizing a with
  | nil => simp
  | cons b t ih =>
    simp only [List.foldl_cons]
    by_cases hb : b < a
    · rw [if_pos hb]
      obtain ⟨hmem, hle⟩ := ih b
      constructor
      · rcases (List.mem_cons).1 hmem with h | h
        · exact (List.mem_cons).2 (Or.inr ((List.mem_cons).2 (Or.inl h)))
        · exact (List.mem_cons).2 (Or.inr ((List.mem_cons).2 (Or.inr h)))
      · intro y hy
        rcases (List.mem_cons).1 hy with rfl | hy
        · exact le_trans (hle b (by simp)) hb.le
        · exact hle y hy
    · rw [if_neg hb]
      obtain ⟨hmem, hle⟩ := ih a
      constructor
      · rcases (List.mem_cons).1 hmem with h | h
        · exact (List.mem_cons).2 (Or.inl h)
        · exact (List.mem_cons).2 (Or.inr ((List.mem_cons).2 (Or.inr h)))
      · intro y hy
        rcases (List.mem_cons).1 hy with rfl | hy
        · exact hle y (by simp)
        · rcases (List.mem_cons).1 hy with rfl | hy
          · exact le_trans (hle a (by simp)) (not_lt.1 hb)
          · exact hle y (by simp [hy])

theorem foldl_max_spec {α : Type} [LinearOrder α] (xs : List α) (a : α) :
    (xs.foldl (fun update y => if update < y then y else update) a) ∈ a :: xs ∧
    ∀ y ∈ a :: xs, y ≤ (xs.foldl (fun update y => if update < y then y else update) a) := by
  induction xs generalizing a with
  | nil => simp
  | cons b t ih =>
    simp only [List.foldl_cons]
    by_cases hb : a < b
    · rw [if_pos hb]
      obtain ⟨hmem, hle⟩ := ih b
      constructor
      · rcases (List.mem_cons).1 hmem with h | h
        · exact (List.mem_cons).2 (Or.inr ((List.mem_cons).2 (Or.inl h)))
        · exact (List.mem_cons).2 (Or.inr ((List.mem_cons).2 (Or.inr h)))
      · intro y hy
        rcases (List.mem_cons).1 hy with rfl | hy
        · exact le_trans hb.le (hle b (by simp))
        · exact hle y hy
    · rw [if_neg hb]
      obtain ⟨hmem, hle⟩ := ih a
      constructor
      · rcases (List.mem_cons).1 hmem with h | h
        · exact (List.mem_cons).2 (Or.inl h)
        · exact (List.mem_cons).2 (Or.inr ((List.mem_cons).2 (Or.inr h)))
      · intro y hy
        rcases (List.mem_cons).1 hy with rfl | hy
        · exact hle y (by simp)
        · rcases (List.mem_cons).1 hy with rfl | hy
          · exact le_trans (not_lt.1 hb) (hle a (by simp))
          · exact hle y (by simp [hy])

theorem foldl_pair_split {α : Type} [LinearOrder α] (xs : List α) (a b : α) :
    xs.foldl (fun p y => (if y < p.1 then y else p.1, if p.2 < y then y else p.2)) (a, b) =
      (xs.foldl (fun update y => if y < update then y else update) a,
       xs.foldl (fun update y => if update < y then y else update) b) := by
  induction xs generalizing a b with
  | nil => rfl
  | cons c t ih => simp only [List.foldl_cons, ih]

/-- C10: for every non-empty rank-1 view, `min_reduce` returns an element of
the view that is less than or equal to every element, `max_reduce` returns an
element greater than or equal to every element, and `minmax_reduce` returns the
pair of those two values; for an empty view each function fails its entry
assertion (`n > 0`) and produces no result. -/
theorem kokkos_min_max_reduce_correct {α : Type} [LinearOrder α] (v : List α) :
    (v = [] → min_reduce v = none ∧ max_reduce v = none ∧ minmax_reduce v = none) ∧
    (v ≠ [] → ∃ m M : α,
      min_reduce v = some m ∧ max_reduce v = some M ∧
      m ∈ v ∧ M ∈ v ∧ (∀ y ∈ v, m ≤ y ∧ y ≤ M) ∧
      minmax_reduce v = some (m, M)) := by
  constructor
  · rintro rfl
    exact ⟨rfl, rfl, rfl⟩
  · intro hne
    match v with
    | [] => exact absurd rfl hne
    | x :: xs =>
      obtain ⟨hminmem, hminle⟩ := foldl_min_spec xs x
      obtain ⟨hmaxmem, hmaxle⟩ := foldl_max_spec xs x
      refine ⟨_, _, rfl, rfl, hminmem, hmaxmem,
        fun y hy => ⟨hminle y hy, hmaxle y hy⟩, ?_⟩
      show some (xs.foldl
          (fun p y => (if y < p.1 then y else p.1, if p.2 < y then y else p.2))
          (x, x)) = _
      rw [foldl_pair_split]

/-- Witness for C10 on a concrete non-empty view. -/
theorem kokkos_min_max_reduce_correct_witness :
    ∃ m M : ℚ,
      min_reduce [(3 : ℚ), 1, 2] = some m ∧ max_reduce [(3 : ℚ), 1, 2] = some M ∧
      m ∈ [(3 : ℚ), 1, 2] ∧ M ∈ [(3 : ℚ), 1, 2] ∧
      (∀ y ∈ [(3 : ℚ), 1, 2], m ≤ y ∧ y ≤ M) ∧
      minmax_reduce [(3 : ℚ), 1, 2] = some (m, M) :=
  (kokkos_min_max_reduce_correct [(3 : ℚ), 1, 2]).2 (by simp)

/-- Start-of-cluster test of the `compute_cluster_starts_and_sizes` scan:
`i == 0 || clusters(i) != clusters(i-1)`. -/
def isClusterFirstIndex (clusters : List ℤ) (i : ℕ) : Bool :=
  decide (i = 0) || decide (clusters.getD i 0 ≠ clusters.getD (i - 1) 0)

/-- Size test of the scan: `i + cluster_min_size - 1 < n` and the cluster id at
that position still matches. -/
def isClusterLargeEnough (clusters : List ℤ) (cluster_min_size : ℤ) (i : ℕ) : Bool :=
  decide ((i : ℤ) + cluster_min_size - 1 < (clusters.length : ℤ)) &&
  decide (clusters.getD ((i : ℤ) + cluster_min_size - 1).toNat 0 = clusters.getD i 0)

/-- Starting positions of the valid clusters, in scan order. -/
def clusterStarts (clusters : List ℤ) (cluster_min_size : ℤ) : List ℕ :=
  (List.range clusters.length).filter
    (fun i => isClusterFirstIndex clusters i && isClusterLargeEnough clusters cluster_min_size i)

/-- Fuelled embedding of the linear search
`while (++end < n && clusters(end) == clusters(i))`; the fuel
`clusters.length + 1` always suffices because the loop stops at `n`. -/
def clusterEndAux (clusters : List ℤ) (c : ℤ) : ℕ → ℕ → ℕ
  | 0, j => j
  | fuel + 1, j =>
    if j < clusters.length ∧ clusters.getD j 0 = c then
      clusterEndAux clusters c fuel (j + 1)
    else j

/-- Size of the cluster starting at position `i` (`end - i` in the source). -/
def clusterSize (clusters : List ℤ) (cluster_min_size : ℤ) (i : ℕ) : ℕ :=
  clusterEndAux clusters (clusters.getD i 0) (clusters.length + 1)
    (((i : ℤ) + cluster_min_size - 1).toNat + 1) - i

/-- Shallow embedding of the DBSCAN `sort_and_filter_clusters` phase
(post-query): given the sorted union-find representatives and the sort
permutation, locate cluster starts and sizes by the parallel scan, turn the
sizes into CSR offsets by an exclusive prefix sum, and populate the cluster
indices through the permutation.  There is no validation of
`cluster_min_size` (or of `eps`) anywhere on this path. -/
def dbscan_sort_and_filter (clusters : List ℤ) (permute : ℕ → ℤ)
    (cluster_min_size : ℤ) : List ℕ × List ℤ :=
  let starts := clusterStarts clusters cluster_min_size
  let sizes := starts.map (clusterSize clusters cluster_min_size)
  (List.scanl (fun a b => a + b) 0 sizes,
   (starts.map (fun st =>
      (List.range (clusterSize clusters cluster_min_size st)).map
        (fun o => permute (st + o)))).flatten)

/-- C6 counterexample: with the invalid configuration `cluster_min_size = 1`
(spec requires `cluster_min_size ≥ 2` to be accepted), the DBSCAN pipeline
reports no configuration error and performs its work, writing non-empty CSR
output — refuting the claim that an invalid configuration is reported at entry
with no work performed. -/
theorem dbscan_invalid_config_no_error :
    (1 : ℤ) < 2 ∧
    dbscan_sort_and_filter [0, 0, 5] (fun k => (k : ℤ)) 1 = ([0, 2, 3], [0, 1, 2]) ∧
    (dbscan_sort_and_filter [0, 0, 5] (fun k => (k : ℤ)) 1).2 ≠ [] := by
  refine ⟨by norm_num, by decide, by decide⟩

theorem clusterEndAux_ge (clusters : List ℤ) (c : ℤ) :
    ∀ (fuel j : ℕ), j ≤ clusterEndAux clusters c fuel j := by
  intro fuel
  induction fuel with
  | zero => intro j; exact le_refl j
  | succ m ih =>
    intro j
    unfold clusterEndAux
    split
    · exact le_trans (Nat.le_succ j) (ih (j + 1))
    · exact le_refl j

theorem scanl_add_getLastD (l : List ℕ) :
    ∀ a d : ℕ, (List.scanl (fun x y => x + y) a l).getLastD d = a + l.sum := by
  induction l with
  | nil =>
    intro a d
    simp [List.scanl_nil]
  | cons b t ih =>
    intro a d
    rw [List.scanl_cons, List.singleton_append, List.getLastD_cons,
      ih (a + b) a, List.sum_cons]
    omega

/-- C6 amended: the entry points perform no configuration validation; for an
invalid `cluster_min_size` (any value `≥ 1` is accepted, including the invalid
`1`), the DBSCAN pipeline proceeds and writes complete CSR output: the offsets
are the exclusive prefix sums of the located cluster sizes (one slot per
cluster plus the total), every emitted cluster has at least
`cluster_min_size` members, and the flat index array has exactly as many
entries as the final offset. -/
theorem dbscan_pipeline_no_validation
    (clusters : List ℤ) (permute : ℕ → ℤ) (cluster_min_size : ℤ)
    (hcms : 1 ≤ cluster_min_size) :
    (dbscan_sort_and_filter clusters permute cluster_min_size).1.length =
      (clusterStarts clusters cluster_min_size).length + 1 ∧
    (∀ st ∈ clusterStarts clusters cluster_min_size,
      cluster_min_size.toNat ≤ clusterSize clusters cluster_min_size st) ∧
    (dbscan_sort_and_filter clusters permute cluster_min_size).2.length =
      ((clusterStarts clusters cluster_min_size).map
        (clusterSize clusters cluster_min_size)).sum ∧
    (dbscan_sort_and_filter clusters permute cluster_min_size).1.getLastD 0 =
      ((clusterStarts clusters cluster_min_size).map
        (clusterSize clusters cluster_min_size)).sum := by
  refine ⟨?_, ?_, ?_, ?_⟩
  · unfold dbscan_sort_and_filter
    simp [List.length_scanl]
  · intro st _
    unfold clusterSize
    have hge := clusterEndAux_ge clusters (clusters.getD st 0)
      (clusters.length + 1) (((st : ℤ) + cluster_min_size - 1).toNat + 1)
    omega
  · unfold dbscan_sort_and_filter
    simp only [List.length_flatten, List.map_map]
    congr 1
    apply List.map_congr_left
    intro st _
    simp
  · unfold dbscan_sort_and_filter
    simp only
    rw [scanl_add_getLastD]
    omega

/-- Witness for the amended C6 statement at the concrete invalid
configuration `cluster_min_size = 1`. -/
theorem dbscan_pipeline_no_validation_witness :
    (dbscan_sort_and_filter [0, 0, 5] (fun k => (k : ℤ)) 1).1.length =
      (clusterStarts [0, 0, 5] 1).length + 1 ∧
    (∀ st ∈ clusterStarts [0, 0, 5] 1, (1 : ℤ).toNat ≤ clusterSize [0, 0, 5] 1 st) ∧
    (dbscan_sort_and_filter [0, 0, 5] (fun k => (k : ℤ)) 1).2.length =
      ((clusterStarts [0, 0, 5] 1).map (clusterSize [0, 0, 5] 1)).sum ∧
    (dbscan_sort_and_filter [0, 0, 5] (fun k => (k : ℤ)) 1).1.getLastD 0 =
      ((clusterStarts [0, 0, 5] 1).map (clusterSize [0, 0, 5] 1)).sum :=
  dbscan_pipeline_no_validation [0, 0, 5] (fun k => (k : ℤ)) 1 (by norm_num)

/-- Per-query context of `FindComponentNearestNeighbors::operator()`: BVH
accessors, labels, the Euclidean box distance from query leaf `i` to a node,
and the metric functor. -/
structure TraversalContext where
  leftChild : ℤ → ℤ
  rightChild : ℤ → ℤ
  isLeaf : ℤ → Bool
  leafPermutation : ℤ → ℤ
  labels : ℤ → ℤ
  boxDistance : ℤ → WithTop ℚ
  metric : ℤ → ℤ → WithTop ℚ → WithTop ℚ
  queryIndex : ℤ
  component : ℤ

/-- Loop state of the manual-stack traversal (CPU variant carrying the
distance stack alongside the node stack, as paired entries). -/
structure TraversalState where
  node : ℤ
  distanceNode : WithTop ℚ
  radius : WithTop ℚ
  stack : List (ℤ × WithTop ℚ)
  currentBest : WeightedEdge

/-- Pop of the manual stack (`node = *--stack_ptr`, paired with the distance
stack pop); on the empty stack the sentinel is produced (never reached: the
sentinel entry sits at the bottom of the stack). -/
def popStack (s : TraversalState) : TraversalState :=
  match s.stack with
  | [] => { s with node := -1, distanceNode := 0 }
  | e :: rest => { s with node := e.1, distanceNode := e.2, stack := rest }

/-- Processing of one child inside the expansion branch: skip same-component
children, prune with the inclusive `distance ≤ radius` test, run the tie-break
comparison for leaf candidates (updating the best edge and atomically
shrinking the shared radius), or schedule an internal child for traversal.
Returns (current best, radius, traverse flag). -/
def considerChild (ctx : TraversalContext) (child : ℤ) (dist_child : WithTop ℚ)
    (best : WeightedEdge) (radius : WithTop ℚ) :
    WeightedEdge × WithTop ℚ × Bool :=
  if ctx.labels child ≠ ctx.component ∧ dist_child ≤ radius then
    if ctx.isLeaf child then
      let candidate_dist := ctx.metric (ctx.leafPermutation ctx.queryIndex)
        (ctx.leafPermutation child) dist_child
      let candidate_edge : WeightedEdge := ⟨ctx.queryIndex, child, candidate_dist⟩
      if edgeLt candidate_edge best then
        (candidate_edge, min radius candidate_dist, false)
      else (best, radius, false)
    else (best, radius, true)
  else (best, radius, false)

/-- Core of the expansion branch after both children have been examined:
either pop (nothing scheduled) or descend to the closer scheduled child,
deferring the other on the stack when both are scheduled. -/
def expandCore (s : TraversalState) (l r : ℤ) (dl dr : WithTop ℚ)
    (resL resR : WeightedEdge × WithTop ℚ × Bool) : TraversalState :=
  if resL.2.2 = false ∧ resR.2.2 = false then
    popStack { s with currentBest := resR.1, radius := resR.2.1 }
  else
    let nd := if resL.2.2 = true ∧ (dl ≤ dr ∨ resR.2.2 = false) then l else r
    { node := nd,
      distanceNode := if nd = l then dl else dr,
      radius := resR.2.1,
      stack := if resL.2.2 = true ∧ resR.2.2 = true then
          (if nd = l then (r, dr) else (l, dl)) :: s.stack
        else s.stack,
      currentBest := resR.1 }

/-- Expansion branch of the loop body (`distance_node ≤ radius`): fetch both
children, examine the left child first (its radius update is visible to the
right child's test, as in the source), then select the next node. -/
def expandNode (ctx : TraversalContext) (s : TraversalState) : TraversalState :=
  let l := ctx.leftChild s.node
  let r := ctx.rightChild s.node
  let dl := ctx.boxDistance l
  let dr := ctx.boxDistance r
  let resL := considerChild ctx l dl s.currentBest s.radius
  let resR := considerChild ctx r dr resL.1 resL.2.1
  expandCore s l r dl dr resL resR

/-- One iteration of the `do { ... } while (node != SENTINEL)` loop of
`FindComponentNearestNeighbors::operator()`. -/
def traversalStep (ctx : TraversalContext) (s : TraversalState) : TraversalState :=
  if s.distanceNode ≤ s.radius then expandNode ctx s else popStack s

/-- Initial loop state: the root with distance `0`, the sentinel at the bottom
of both stacks, and the given shared radius and best-edge seed. -/
def initialTraversalState (root : ℤ) (radius0 : WithTop ℚ)
    (best0 : WeightedEdge) : TraversalState :=
  ⟨root, 0, radius0, [((-1 : ℤ), (0 : WithTop ℚ))], best0⟩

/-- C5: in the component nearest-neighbor traversal the expansion test is
inclusive: a node is expanded exactly when `distance_node ≤ radius` (and
pruned to a pop when `distance_node > radius`); a differently-labeled child is
considered (as a leaf candidate or scheduled for traversal) iff its distance
is `≤ radius`; and a leaf candidate at distance exactly equal to the current
radius is not pruned — the tie-break comparison `candidate_edge <
current_best` runs on it. -/
theorem mst_traversal_inclusive_radius_test (ctx : TraversalContext) :
    (∀ s : TraversalState, s.distanceNode ≤ s.radius →
      traversalStep ctx s = expandNode ctx s) ∧
    (∀ s : TraversalState, ¬ s.distanceNode ≤ s.radius →
      traversalStep ctx s = popStack s) ∧
    (∀ (child : ℤ) (d : WithTop ℚ) (best : WeightedEdge) (rad : WithTop ℚ),
      ¬ (ctx.labels child ≠ ctx.component ∧ d ≤ rad) →
      considerChild ctx child d best rad = (best, rad, false)) ∧
    (∀ (child : ℤ) (d : WithTop ℚ) (best : WeightedEdge) (rad : WithTop ℚ),
      ctx.labels child ≠ ctx.component → d ≤ rad → ctx.isLeaf child = false →
      considerChild ctx child d best rad = (best, rad, true)) ∧
    (∀ (child : ℤ) (best : WeightedEdge) (rad : WithTop ℚ),
      ctx.labels child ≠ ctx.component → ctx.isLeaf child = true →
      considerChild ctx child rad best rad =
        (if edgeLt ⟨ctx.queryIndex, child,
            ctx.metric (ctx.leafPermutation ctx.queryIndex)
              (ctx.leafPermutation child) rad⟩ best then
          (⟨ctx.queryIndex, child,
              ctx.metric (ctx.leafPermutation ctx.queryIndex)
                (ctx.leafPermutation child) rad⟩,
            min rad (ctx.metric (ctx.leafPermutation ctx.queryIndex)
              (ctx.leafPermutation child) rad), false)
        else (best, rad, false))) := by
  refine ⟨?_, ?_, ?_, ?_, ?_⟩
  · intro s h
    unfold traversalStep
    rw [if_pos h]
  · intro s h
    unfold traversalStep
    rw [if_neg h]
  · intro child d best rad h
    unfold considerChild
    rw [if_neg h]
  · intro child d best rad h1 h2 h3
    unfold considerChild
    rw [if_pos ⟨h1, h2⟩, if_neg (by rw [h3]; exact Bool.false_ne_true)]
  · intro child best rad h1 h2
    unfold considerChild
    rw [if_pos ⟨h1, le_refl rad⟩, if_pos h2]

/-- Concrete traversal context for the C5 and C8 witnesses: a two-leaf BVH
(root `0`, leaves `1` and `2`), query leaf `1` in component `1`, leaf `2` in
the other component at box distance exactly `5`. -/
def witnessContext : TraversalContext where
  leftChild := fun _ => 1
  rightChild := fun _ => 2
  isLeaf := fun x => decide (x ≠ 0)
  leafPermutation := fun x => x - 1
  labels := fun x => x
  boxDistance := fun x => if x = 2 then (5 : ℚ) else 0
  metric := fun _ _ d => d
  queryIndex := 1
  component := 1

/-- Witness for C5: at distance exactly equal to the radius the node is
expanded, and the equidistant differently-labeled leaf candidate goes through
the tie-break comparison rather than being pruned. -/
theorem mst_traversal_inclusive_radius_test_witness :
    traversalStep witnessContext ⟨0, (5 : ℚ), (5 : ℚ), [((-1 : ℤ), (0 : WithTop ℚ))],
        ⟨1, -1, ⊤⟩⟩ =
      expandNode witnessContext ⟨0, (5 : ℚ), (5 : ℚ), [((-1 : ℤ), (0 : WithTop ℚ))],
        ⟨1, -1, ⊤⟩⟩ ∧
    considerChild witnessContext 2 (5 : ℚ) ⟨1, -1, ⊤⟩ (5 : ℚ) =
      (if edgeLt ⟨witnessContext.queryIndex, 2,
          witnessContext.metric (witnessContext.leafPermutation witnessContext.queryIndex)
            (witnessContext.leafPermutation 2) (5 : ℚ)⟩ ⟨1, -1, ⊤⟩ then
        (⟨witnessContext.queryIndex, 2,
            witnessContext.metric (witnessContext.leafPermutation witnessContext.queryIndex)
              (witnessContext.leafPermutation 2) (5 : ℚ)⟩,
          min ((5 : ℚ) : WithTop ℚ) (witnessContext.metric
            (witnessContext.leafPermutation witnessContext.queryIndex)
            (witnessContext.leafPermutation 2) (5 : ℚ)), false)
      else (⟨1, -1, ⊤⟩, (5 : ℚ), false)) := by
  have h := mst_traversal_inclusive_radius_test witnessContext
  refine ⟨h.1 ⟨0, (5 : ℚ), (5 : ℚ), [((-1 : ℤ), (0 : WithTop ℚ))], ⟨1, -1, ⊤⟩⟩
    (le_refl _), ?_⟩
  exact h.2.2.2.2 2 ⟨1, -1, ⊤⟩ (5 : ℚ) (by decide) (by decide)

/-- Deferred-sibling structure of the manual stack: every entry above the
sentinel is an internal node whose depth dominates its height in the stack
(the entry `j` positions above the sentinel sits at depth at least `j`). -/
def stackChainOk (ctx : TraversalContext) (depth : ℤ → ℕ) :
    List (ℤ × WithTop ℚ) → Prop
  | [] => True
  | e :: rest =>
    ctx.isLeaf e.1 = false ∧ rest.length + 1 ≤ depth e.1 ∧
      stackChainOk ctx depth rest

/-- Traversal-loop invariant: either the current node is internal, the stack
is the deferred siblings above the sentinel, and the number of deferred
entries is bounded by the current depth — or the loop has terminated (the
sentinel was popped, emptying the stack). -/
def StackInvariant (ctx : TraversalContext) (depth : ℤ → ℕ)
    (s : TraversalState) : Prop :=
  (∃ es, s.stack = es ++ [((-1 : ℤ), (0 : WithTop ℚ))] ∧
    stackChainOk ctx depth es ∧
    ctx.isLeaf s.node = false ∧ es.length ≤ depth s.node) ∨
  (s.node = -1 ∧ s.stack = [])

theorem considerChild_traverse {ctx : TraversalContext} {child : ℤ}
    {d : WithTop ℚ} {best : WeightedEdge} {rad : WithTop ℚ}
    (h : (considerChild ctx child d best rad).2.2 = true) :
    ctx.isLeaf child = false := by
  unfold considerChild at h
  split at h
  · split at h
    · dsimp only at h
      split at h <;> simp at h
    · rename_i hleaf
      simpa using hleaf
  · simp at h

theorem popStack_eq {s : TraversalState} {e : ℤ × WithTop ℚ}
    {rest : List (ℤ × WithTop ℚ)} (h : s.stack = e :: rest) :
    popStack s = { s with node := e.1, distanceNode := e.2, stack := rest } := by
  unfold popStack
  rw [h]

theorem popStack_invariant {ctx : TraversalContext} {depth : ℤ → ℕ}
    {es : List (ℤ × WithTop ℚ)} {s : TraversalState}
    (hstack : s.stack = es ++ [((-1 : ℤ), (0 : WithTop ℚ))])
    (hchain : stackChainOk ctx depth es) :
    StackInvariant ctx depth (popStack s) := by
  cases es with
  | nil =>
    have h2 : s.stack = ((-1 : ℤ), (0 : WithTop ℚ)) :: [] := by
      simpa using hstack
    rw [popStack_eq h2]
    right
    exact ⟨rfl, rfl⟩
  | cons e rest =>
    obtain ⟨hleaf, hlen, hchain2⟩ := hchain
    have h2 : s.stack = e :: (rest ++ [((-1 : ℤ), (0 : WithTop ℚ))]) := by
      simpa using hstack
    rw [popStack_eq h2]
    left
    exact ⟨rest, rfl, hchain2, hleaf, show rest.length ≤ depth e.1 by omega⟩

theorem expandCore_invariant {ctx : TraversalContext} {depth : ℤ → ℕ}
    {es : List (ℤ × WithTop ℚ)} {s : TraversalState} {l r : ℤ}
    {dl dr : WithTop ℚ} {resL resR : WeightedEdge × WithTop ℚ × Bool}
    (hstack : s.stack = es ++ [((-1 : ℤ), (0 : WithTop ℚ))])
    (hchain : stackChainOk ctx depth es)
    (hlen : es.length ≤ depth s.node)
    (hl : resL.2.2 = true → ctx.isLeaf l = false)
    (hr : resR.2.2 = true → ctx.isLeaf r = false)
    (hdl : depth l = depth s.node + 1)
    (hdr : depth r = depth s.node + 1) :
    StackInvariant ctx depth (expandCore s l r dl dr resL resR) := by
  unfold expandCore
  split
  · exact popStack_invariant
      (show TraversalState.stack
          { s with currentBest := resR.1, radius := resR.2.1 } =
        es ++ [((-1 : ℤ), (0 : WithTop ℚ))] from hstack) hchain
  · rename_i hcond
    show StackInvariant ctx depth
      { node := if resL.2.2 = true ∧ (dl ≤ dr ∨ resR.2.2 = false) then l else r,
        distanceNode :=
          if (if resL.2.2 = true ∧ (dl ≤ dr ∨ resR.2.2 = false) then l else r) = l
          then dl else dr,
        radius := resR.2.1,
        stack := if resL.2.2 = true ∧ resR.2.2 = true then
            (if (if resL.2.2 = true ∧ (dl ≤ dr ∨ resR.2.2 = false) then l else r) = l
              then (r, dr) else (l, dl)) :: s.stack
          else s.stack,
        currentBest := resR.1 }
    have hone : resL.2.2 = true ∨ resR.2.2 = true := by
      cases h1 : resL.2.2
      · cases h2 : resR.2.2
        · exact absurd ⟨h1, h2⟩ hcond
        · exact Or.inr rfl
      · exact Or.inl rfl
    set nd := if resL.2.2 = true ∧ (dl ≤ dr ∨ resR.2.2 = false) then l else r
      with hnd_def
    have hndP : ctx.isLeaf nd = false ∧ depth nd = depth s.node + 1 := by
      rw [hnd_def]
      split
      · rename_i hc
        exact ⟨hl hc.1, hdl⟩
      · rename_i hc
        have htr : resR.2.2 = true := by
          rcases hone with h1 | h1
          · cases h2 : resR.2.2
            · exact absurd ⟨h1, Or.inr h2⟩ hc
            · exact rfl
          · exact h1
        exact ⟨hr htr, hdr⟩
    left
    by_cases hpush : resL.2.2 = true ∧ resR.2.2 = true
    · set pushed := if nd = l then ((r, dr) : ℤ × WithTop ℚ) else (l, dl)
        with hp_def
      have hpP : ctx.isLeaf pushed.1 = false ∧ depth pushed.1 = depth s.node + 1 := by
        rw [hp_def]
        split
        · exact ⟨hr hpush.2, hdr⟩
        · exact ⟨hl hpush.1, hdl⟩
      refine ⟨pushed :: es, ?_, ⟨hpP.1, ?_, hchain⟩, hndP.1, ?_⟩
      · simp only [if_pos hpush, hstack, List.cons_append]
      · rw [hpP.2]
        omega
      · simp only [List.length_cons]
        rw [hndP.2]
        omega
    · refine ⟨es, ?_, hchain, hndP.1, ?_⟩
      · simp only [if_neg hpush, hstack]
      · rw [hndP.2]
        omega

theorem stackInvariant_step {ctx : TraversalContext} {depth : ℤ → ℕ}
    {s : TraversalState}
    (hchild : ∀ x, ctx.isLeaf x = false →
      depth (ctx.leftChild x) = depth x + 1 ∧ depth (ctx.rightChild x) = depth x + 1)
    (hs : StackInvariant ctx depth s) (hnode : s.node ≠ -1) :
    StackInvariant ctx depth (traversalStep ctx s) := by
  rcases hs with ⟨es, hstack, hchain, hleaf, hlen⟩ | ⟨hn, _⟩
  · unfold traversalStep
    split
    · unfold expandNode
      exact expandCore_invariant hstack hchain hlen
        (fun h => considerChild_traverse h) (fun h => considerChild_traverse h)
        (hchild s.node hleaf).1 (hchild s.node hleaf).2
    · exact popStack_invariant hstack hchain
  · exact absurd hn hnode

/-- C8: for every BVH whose node depths are bounded by 63 (root internal, each
child one level deeper), the manual traversal stack of the component
nearest-neighbor kernel never overflows its fixed 64-entry capacity: at every
reachable loop state the number of stacked entries (including the initial
sentinel) is at most `depth(node) + 1 ≤ 64`, so all writes through
`stack_ptr` (and `stack_distance_ptr`) stay inside the arrays. -/
theorem mst_traversal_stack_within_bounds
    (ctx : TraversalContext) (depth : ℤ → ℕ) (root : ℤ)
    (radius0 : WithTop ℚ) (best0 : WeightedEdge) (s : TraversalState)
    (hchild : ∀ x, ctx.isLeaf x = false →
      depth (ctx.leftChild x) = depth x + 1 ∧ depth (ctx.rightChild x) = depth x + 1)
    (hbound : ∀ x, depth x ≤ 63)
    (hroot : ctx.isLeaf root = false)
    (hreach : Relation.ReflTransGen
      (fun a b => a.node ≠ -1 ∧ b = traversalStep ctx a)
      (initialTraversalState root radius0 best0) s) :
    s.stack.length ≤ 64 ∧
    (s.node ≠ -1 → s.stack.length ≤ depth s.node + 1) := by
  have hinv : StackInvariant ctx depth s := by
    induction hreach with
    | refl =>
      left
      exact ⟨[], rfl, trivial, hroot, Nat.zero_le _⟩
    | tail _ hstep ih =>
      obtain ⟨hne, rfl⟩ := hstep
      exact stackInvariant_step hchild ih hne
  rcases hinv with ⟨es, hstack, _, _, hlen⟩ | ⟨hn, hstack⟩
  · have hb := hbound s.node
    constructor
    · rw [hstack, List.length_append]
      simp only [List.length_cons, List.length_nil]
      omega
    · intro _
      rw [hstack, List.length_append]
      simp only [List.length_cons, List.length_nil]
      omega
  · constructor
    · rw [hstack]
      simp
    · intro h
      exact absurd hn h

/-- Depth function of the two-leaf witness BVH. -/
def witnessDepth : ℤ → ℕ := fun x => if x = 0 then 0 else 1

/-- Witness for C8 on the two-leaf BVH, at the initial reachable state. -/
theorem mst_traversal_stack_within_bounds_witness :
    (initialTraversalState 0 ((5 : ℚ) : WithTop ℚ) ⟨1, -1, ⊤⟩).stack.length ≤ 64 ∧
    ((initialTraversalState 0 ((5 : ℚ) : WithTop ℚ) ⟨1, -1, ⊤⟩).node ≠ -1 →
      (initialTraversalState 0 ((5 : ℚ) : WithTop ℚ) ⟨1, -1, ⊤⟩).stack.length ≤
        witnessDepth (initialTraversalState 0 ((5 : ℚ) : WithTop ℚ) ⟨1, -1, ⊤⟩).node + 1) := by
  refine mst_traversal_stack_within_bounds witnessContext witnessDepth 0
    ((5 : ℚ) : WithTop ℚ) ⟨1, -1, ⊤⟩ _ ?_ ?_ (by decide) Relation.ReflTransGen.refl
  · intro x hx
    have hx0 : x = 0 := by
      by_contra hne
      simp [witnessContext, hne] at hx
    subst hx0
    constructor <;> rfl
  · intro x
    unfold witnessDepth
    split <;> omega
